import Mathlib

/-!
Shallow embedding of the HopsFS Go client write path (`file_writer.go`) and
proofs about the claims of its specification.

The embedding models the `FileWriter` state machine: small-file ("store in
database") buffering, the streaming loop `writeInternal` with transparent CTR
encryption, block lifecycle (`startNewBlock`, `closeBlock`,
`addBlockWithRetry`), and the `Flush` / `Close` / `closeInt` sequences.
External collaborators (the block writer, the NameNode RPC layer, the dialer,
the keystream constructor) are modelled as oracles: functions from a call
counter to the outcome of that call, so every execution of the embedded code
is a deterministic function of the oracle environment.
-/

namespace HopsFS

/-! ## Basic data: errors and substring matching -/

/-- Go `strings.Contains`: `pat` occurs as a contiguous substring of `s`.
Implemented over the character lists of the two strings. -/
def listPrefixOf : List Char → List Char → Bool
  | [], _ => true
  | _ :: _, [] => false
  | a :: as, b :: bs => a == b && listPrefixOf as bs

/-- Helper for `strContains`: does `pat` occur at some position of the list? -/
def listContainsAt (pat : List Char) : List Char → Bool
  | [] => listPrefixOf pat []
  | c :: rest => listPrefixOf pat (c :: rest) || listContainsAt pat rest

/-- Go `strings.Contains s pat`. -/
def strContains (s pat : String) : Bool :=
  listContainsAt pat.data s.data

/-- Go `error` values as they occur in `file_writer.go`.
`pathError` is `os.PathError{Op, Path, Err}`; `replicating` is the package
sentinel `ErrReplicating`; `endOfBlock` is `transfer.ErrEndOfBlock`;
`shortWrite` is `io.ErrShortWrite` (produced by `cipher.StreamWriter`);
`msg s` is any other error whose `Error()` text is `s`. -/
inductive GoErr where
  | pathError (op : String) (path : String) (cause : GoErr)
  | replicating
  | endOfBlock
  | shortWrite
  | msg (s : String)
deriving DecidableEq

/-- The `Error()` text of an error, as used by `strings.Contains` checks.
`os.PathError.Error()` is `Op ++ " " ++ Path ++ ": " ++ Err.Error()`. -/
def GoErr.message : GoErr → String
  | .pathError op path cause => op ++ " " ++ path ++ ": " ++ cause.message
  | .replicating => "replication in progress"
  | .endOfBlock => "end of block reached"
  | .shortWrite => "short write"
  | .msg s => s

/-- The sentinel `ErrReplicating = errors.New("replication in progress")`
(file_writer.go:17). Sentinel identity is modelled by the constructor. -/
def ErrReplicating : GoErr := .replicating

/-- `IsErrReplicating` (file_writer.go:21-24): true iff the error is an
`os.PathError` whose wrapped `Err` is the sentinel `ErrReplicating`. -/
def IsErrReplicating : GoErr → Bool
  | .pathError _ _ cause => cause == ErrReplicating
  | _ => false

/-- `MaxSmallFileSize = 1024 * 64` (file_writer.go:15). -/
def MaxSmallFileSize : Nat := 1024 * 64

/-- Modelled from the spec: the NameNode RPC exception-to-error mapping
(`interpretException`) is out of scope of the source; per §1 it is an external
collaborator. The spec's error-handling section relies only on the error
text, so the model maps an RPC error to a plain error with the same text. -/
def interpretException (s : String) : GoErr := .msg s

/-! ## Oracle environment for the external collaborators -/

/-- Outcome of one `blockWriter.Write` call: `.ok` is a nil error,
`.endOfBlock` is `transfer.ErrEndOfBlock`, `.fail s` any other error. -/
inductive BWErr where
  | ok
  | endOfBlock
  | fail (s : String)
deriving DecidableEq

/-- Outcome of one `complete` RPC `Execute` call: either a transport error or
a reply carrying the boolean `Result` field. -/
inductive CpResp where
  | err (s : String)
  | result (b : Bool)
deriving DecidableEq

/-- The oracle environment. Each field gives, for the i-th call of one
external primitive, that call's outcome. `bwWrite i m` additionally receives
the number `m` of bytes offered and returns the pair (bytes consumed, error)
of the block writer. -/
structure Env where
  bwWrite : Nat → Nat → Nat × BWErr
  bwClose : Nat → Option String
  bwFlush : Nat → Option String
  abExec : Nat → Option String
  dialErr : Nat → Option String
  setDl : Nat → Option String
  mkStream : Nat → Option String
  cpExec : Nat → CpResp

/-- A well-formed environment: the block writer never reports more consumed
bytes than it was offered (the `io.Writer` contract `0 ≤ n ≤ len(p)`). -/
def EnvWF (env : Env) : Prop := ∀ i m, (env.bwWrite i m).1 ≤ m

/-! ## FileWriter state -/

/-- The mutable fields of `FileWriter` (file_writer.go:29-44) that the write
path reads or writes. `enc = none` models `enc == nil`; `enc = some s` models
an installed `transparentEncryptionInfo` whose `stream` field is `s`
(`some c` being a live CTR keystream positioned at byte offset `c` of the
file, `none` a nil stream). `blockWriter = some ()` models a non-nil block
writer. Bytes are modelled as `Nat`. -/
structure FW where
  name : String
  storeInDB : Bool
  smallFileBuffer : List Nat
  pos : Nat
  blockWriter : Option Unit
  enc : Option (Option Nat)
deriving DecidableEq

/-- One contiguous run of bytes consumed by the block writer: the file offset
of its first byte, the keystream offset of its first byte (`none` when the
write was unencrypted), and the plaintext bytes consumed. -/
structure Chunk where
  filePos : Nat
  ksPos : Option Nat
  data : List Nat
deriving DecidableEq

/-- World: the FileWriter state plus the oracle call counters and an
instrumentation log. `chunks` records every run of bytes consumed by block
writers; `closeIntCalls` counts invocations of `closeInt`. -/
structure W where
  fw : FW
  cW : Nat
  cC : Nat
  cF : Nat
  cA : Nat
  cD : Nat
  cS : Nat
  cM : Nat
  cCp : Nat
  chunks : List Chunk
  closeIntCalls : Nat
deriving DecidableEq

/-- Total number of bytes recorded in a chunk list. -/
def totLen (cs : List Chunk) : Nat := (cs.map (fun ch => ch.data.length)).sum

/-- Concatenation of the bytes recorded in a chunk list. -/
def concatData (cs : List Chunk) : List Nat := (cs.map (fun ch => ch.data)).flatten

/-! ## Retry loops (`addBlockWithRetry`, the `complete` loop of `closeInt`) -/

/-- Result of a run of `addBlockWithRetry`: how many `addBlock` RPCs were
issued, the sleeps (in milliseconds) taken between attempts, and the error
returned. -/
structure AbRun where
  attempts : Nat
  sleeps : List Nat
  err : Option String
deriving DecidableEq

/-- The loop of `addBlockWithRetry` (file_writer.go:449-457): at most 8
attempts; after an error containing "NotReplicatedYetException" sleep the
current delay and double it; any other outcome (success or other error) stops
the loop. `i` is the index of the next attempt, `sleeps` accumulates in
reverse, `last` is the error of the previous attempt. -/
def abLoop (exec : Nat → Option String) : Nat → Nat → Nat → List Nat → Option String → AbRun
  | 0, i, _, sleeps, last => ⟨i, sleeps.reverse, last⟩
  | fuel + 1, i, delay, sleeps, _ =>
    match exec i with
    | some s =>
      if strContains s "NotReplicatedYetException" then
        abLoop exec fuel (i + 1) (delay * 2) (delay :: sleeps) (some s)
      else
        ⟨i + 1, sleeps.reverse, some s⟩
    | none => ⟨i + 1, sleeps.reverse, none⟩

/-- `addBlockWithRetry` (file_writer.go:438-459): 8 attempts, initial delay
400 ms. -/
def addBlockWithRetry (exec : Nat → Option String) : AbRun :=
  abLoop exec 8 0 400 [] none

/-- Result of the `complete` retry loop of `closeInt`: attempts issued,
sleeps taken, and the error returned (`none` is a nil return). -/
structure CpRun where
  attempts : Nat
  sleeps : List Nat
  err : Option GoErr
deriving DecidableEq

/-- The `complete` loop of `closeInt` (file_writer.go:381-399): at most 10
attempts; an RPC error returns a path-error immediately; `result = false`
sleeps the current delay (doubling) and retries; `result = true` returns nil.
On exhaustion it returns a path-error wrapping a fresh
`errors.New("failed to close the file")`. -/
def cpLoop (name : String) (exec : Nat → CpResp) : Nat → Nat → Nat → List Nat → CpRun
  | 0, i, _, sleeps =>
    ⟨i, sleeps.reverse, some (.pathError "create" name (.msg "failed to close the file"))⟩
  | fuel + 1, i, slp, sleeps =>
    match exec i with
    | .err s => ⟨i + 1, sleeps.reverse, some (.pathError "create" name (interpretException s))⟩
    | .result true => ⟨i + 1, sleeps.reverse, none⟩
    | .result false => cpLoop name exec fuel (i + 1) (slp * 2) (slp :: sleeps)

/-- The full `complete` loop: 10 attempts, initial sleep 250 ms. -/
def completeLoop (name : String) (exec : Nat → CpResp) : CpRun :=
  cpLoop name exec 10 0 250 []

/-! ## Block lifecycle -/

/-- Map a block writer error to the error value seen by `writeInternal`. -/
def bwErrTo : BWErr → Option GoErr
  | .ok => none
  | .endOfBlock => some .endOfBlock
  | .fail s => some (.msg s)

/-- `closeBlock` (file_writer.go:461-469): close the block writer; on success
clear `blockWriter`, on error leave it in place and return the error. -/
def closeBlock (env : Env) (w : W) : Option GoErr × W :=
  match env.bwClose w.cC with
  | some s => (some (.msg s), { w with cC := w.cC + 1 })
  | none => (none, { w with cC := w.cC + 1, fw := { w.fw with blockWriter := none } })

/-- Second half of `startNewBlock` (file_writer.go:415-435): run
`addBlockWithRetry`; wrap its error as a path-error; on success wrap the
dialer, install the new block writer, and apply the deadline to it. An error
from the dialer or from `SetDeadline` is returned raw. -/
def startNewBlockTail (env : Env) (w : W) : Option GoErr × W :=
  let run := addBlockWithRetry (fun j => env.abExec (w.cA + j))
  let w := { w with cA := w.cA + run.attempts }
  match run.err with
  | some s => (some (.pathError "create" w.fw.name (interpretException s)), w)
  | none =>
    match env.dialErr w.cD with
    | some s => (some (.msg s), { w with cD := w.cD + 1 })
    | none =>
      let w := { w with cD := w.cD + 1, fw := { w.fw with blockWriter := some () } }
      match env.setDl w.cS with
      | some s => (some (.msg s), { w with cS := w.cS + 1 })
      | none => (none, { w with cS := w.cS + 1 })

/-- `startNewBlock` (file_writer.go:402-436): if a block writer is open,
close it first (propagating a close failure); then allocate and install the
next block. -/
def startNewBlock (env : Env) (w : W) : Option GoErr × W :=
  if w.fw.blockWriter.isSome then
    match closeBlock env w with
    | (some e, w) => (some e, w)
    | (none, w) => startNewBlockTail env w
  else
    startNewBlockTail env w

/-! ## The streaming loop `writeInternal` -/

/-- Outcome of one iteration of the `writeInternal` loop: `.ret n e w` is an
early `return n, e` out of the function, `.next off w` continues the loop
with cursor `off`. -/
inductive StepOut where
  | ret (n : Nat) (e : GoErr) (w : W)
  | next (off : Nat) (w : W)
deriving DecidableEq

/-- The world carried by a step outcome. -/
def StepOut.toW : StepOut → W
  | .ret _ _ w => w
  | .next _ w => w

/-- Tail of a loop iteration (file_writer.go:283-289): an `ErrEndOfBlock`
from the write is replaced by the outcome of `startNewBlock`; any remaining
error returns `(off, err)` out of `writeInternal`; otherwise loop. -/
def wiStepFinish (env : Env) (e : Option GoErr) (off : Nat) (w : W) : StepOut :=
  match e with
  | some .endOfBlock =>
    match startNewBlock env w with
    | (some e2, w) => .ret off e2 w
    | (none, w) => .next off w
  | some e => .ret off e w
  | none => .next off w

/-- The encrypted write of one iteration (file_writer.go:269-274), with a
live keystream at byte offset `c`. `cipher.StreamWriter.Write` encrypts the
whole offered slice (advancing the keystream by `offered`), hands it to the
block writer, and turns a nil error with a short count into
`io.ErrShortWrite`; the code then drops the keystream unless the block writer
consumed the entire offer. -/
def wiStepEnc (env : Env) (b : List Nat) (off : Nat) (w : W) (c : Nat) : StepOut :=
  let offered := b.length - off
  let r := env.bwWrite w.cW offered
  let n := r.1
  let e : Option GoErr :=
    match r.2 with
    | .ok => if n = offered then none else some .shortWrite
    | be => bwErrTo be
  let newStream : Option Nat := if n = offered then some (c + offered) else none
  let w := { w with
    cW := w.cW + 1,
    chunks := w.chunks ++ [⟨w.fw.pos, some c, (b.drop off).take n⟩],
    fw := { w.fw with pos := w.fw.pos + n, enc := some newStream } }
  wiStepFinish env e (off + n) w

/-- The unencrypted write of one iteration (file_writer.go:276): offer the
rest of the slice to the block writer directly. -/
def wiStepPlain (env : Env) (b : List Nat) (off : Nat) (w : W) : StepOut :=
  let offered := b.length - off
  let r := env.bwWrite w.cW offered
  let n := r.1
  let w := { w with
    cW := w.cW + 1,
    chunks := w.chunks ++ [⟨w.fw.pos, none, (b.drop off).take n⟩],
    fw := { w.fw with pos := w.fw.pos + n } }
  wiStepFinish env (bwErrTo r.2) (off + n) w

/-- One iteration of the `writeInternal` loop (file_writer.go:259-290),
assuming `off < b.length`. With encryption installed and no live keystream,
first build one at `pos` — a failure there is `return 0, err`
(file_writer.go:264-267). Without encryption, write the slice directly. -/
def wiStep (env : Env) (b : List Nat) (off : Nat) (w : W) : StepOut :=
  match w.fw.enc with
  | some streamOpt =>
    match streamOpt with
    | none =>
      match env.mkStream w.cM with
      | some s => .ret 0 (.msg s) { w with cM := w.cM + 1 }
      | none =>
        wiStepEnc env b off
          { w with cM := w.cM + 1, fw := { w.fw with enc := some (some w.fw.pos) } }
          w.fw.pos
    | some c => wiStepEnc env b off w c
  | none => wiStepPlain env b off w

/-- The `for off < len(b)` loop of `writeInternal`, with explicit fuel (the
Go loop does not terminate if the block writer keeps reporting zero consumed
bytes with a nil error; `none` is returned when the fuel runs out). -/
def wiLoop (env : Env) (b : List Nat) : Nat → Nat → W → Option (Nat × Option GoErr × W)
  | 0, off, w => if off < b.length then none else some (off, none, w)
  | fuel + 1, off, w =>
    if off < b.length then
      match wiStep env b off w with
      | .ret n e w => some (n, some e, w)
      | .next off2 w => wiLoop env b fuel off2 w
    else
      some (off, none, w)

/-- `writeInternal` (file_writer.go:250-293): open a block if none is open
(`return 0, err` on failure), then run the loop. -/
def writeInternal (env : Env) (fuel : Nat) (w : W) (b : List Nat) :
    Option (Nat × Option GoErr × W) :=
  if w.fw.blockWriter.isNone then
    match startNewBlock env w with
    | (some e, w) => some (0, some e, w)
    | (none, w) => wiLoop env b fuel 0 w
  else
    wiLoop env b fuel 0 w

/-! ## Public operations -/

/-- `Write` (file_writer.go:234-248): in small-file mode append to the
buffer; if the buffer still fits in `MaxSmallFileSize` return `len(b)`
successfully, otherwise flip `storeInDB` off, stream the whole buffer, and
return `len(b)` with the streaming error. Outside small-file mode, stream
directly. -/
def Write (env : Env) (fuel : Nat) (w : W) (b : List Nat) :
    Option (Nat × Option GoErr × W) :=
  if w.fw.storeInDB then
    let w := { w with fw := { w.fw with smallFileBuffer := w.fw.smallFileBuffer ++ b } }
    if w.fw.smallFileBuffer.length ≤ MaxSmallFileSize then
      some (b.length, none, w)
    else
      let w := { w with fw := { w.fw with storeInDB := false } }
      match writeInternal env fuel w w.fw.smallFileBuffer with
      | none => none
      | some (_, e, w) => some (b.length, e, w)
  else
    writeInternal env fuel w b

/-- `Flush` (file_writer.go:298-315): in small-file mode with a non-empty
buffer, stream the buffer (returning the error on failure, leaving
`storeInDB` set) and flip `storeInDB` off; then flush the block writer if one
is open. -/
def Flush (env : Env) (fuel : Nat) (w : W) : Option (Option GoErr × W) :=
  let step1 : Option (Option GoErr × W) :=
    if w.fw.storeInDB then
      if 0 < w.fw.smallFileBuffer.length then
        match writeInternal env fuel w w.fw.smallFileBuffer with
        | none => none
        | some (_, some e, w) => some (some e, w)
        | some (_, none, w) => some (none, { w with fw := { w.fw with storeInDB := false } })
      else some (none, w)
    else some (none, w)
  match step1 with
  | none => none
  | some (some e, w) => some (some e, w)
  | some (none, w) =>
    if w.fw.blockWriter.isSome then
      match env.bwFlush w.cF with
      | some s => some (some (.msg s), { w with cF := w.cF + 1 })
      | none => some (none, { w with cF := w.cF + 1 })
    else some (none, w)

/-- `SetDeadline` (file_writer.go:220-228): record the deadline (the time
value itself is not modelled) and, if a block writer is open, propagate it. -/
def SetDeadline (env : Env) (w : W) : Option GoErr × W :=
  if w.fw.blockWriter.isSome then
    match env.setDl w.cS with
    | some s => (some (.msg s), { w with cS := w.cS + 1 })
    | none => (none, { w with cS := w.cS + 1 })
  else (none, w)

/-- `closeInt` (file_writer.go:355-400): outside small-file mode, drain the
open block writer (propagating a failure); then run the `complete` retry
loop. The instrumentation counter `closeIntCalls` records the invocation. -/
def closeInt (env : Env) (w : W) : Option GoErr × W :=
  let w1 : W := { w with closeIntCalls := w.closeIntCalls + 1 }
  if ¬ w1.fw.storeInDB ∧ w1.fw.blockWriter.isSome then
    match closeBlock env w1 with
    | (some e, w2) => (some e, w2)
    | (none, w2) =>
      let run := completeLoop w2.fw.name (fun j => env.cpExec (w2.cCp + j))
      (run.err, { w2 with cCp := w2.cCp + run.attempts })
  else
    let run := completeLoop w1.fw.name (fun j => env.cpExec (w1.cCp + j))
    (run.err, { w1 with cCp := w1.cCp + run.attempts })

/-- `Close` (file_writer.go:328-353): run `closeInt`; if it fails while
small-file mode is active, the buffer is non-empty, and the error text
contains "OutOfDBExtentsException", stream the buffer (returning a streaming
failure directly), flip `storeInDB` off, and run `closeInt` once more; any
other failure is returned directly. -/
def Close (env : Env) (fuel : Nat) (w : W) : Option (Option GoErr × W) :=
  match closeInt env w with
  | (none, w) => some (none, w)
  | (some e, w) =>
    if w.fw.storeInDB ∧ w.fw.smallFileBuffer ≠ [] ∧
        strContains e.message "OutOfDBExtentsException" = true then
      match writeInternal env fuel w w.fw.smallFileBuffer with
      | none => none
      | some (_, some e2, w) => some (some e2, w)
      | some (_, none, w) =>
        let w := { w with fw := { w.fw with storeInDB := false } }
        match closeInt env w with
        | (r, w) => some (r, w)
    else some (some e, w)

/-- Run a sequence of `Write` calls, collecting the returned pairs. -/
def runWrites (env : Env) (fuel : Nat) : W → List (List Nat) →
    Option (List (Nat × Option GoErr) × W)
  | w, [] => some ([], w)
  | w, b :: bs =>
    match Write env fuel w b with
    | none => none
    | some (n, e, w) =>
      match runWrites env fuel w bs with
      | none => none
      | some (rs, w) => some ((n, e) :: rs, w)

/-- The storage-policy inspection of `CreateFile` (file_writer.go:97-100):
Go executes `*createResp.Fs.StoragePolicy == uint32(14)` with no nil check,
so a response without a storage policy dereferences a nil pointer; the panic
is modelled as `none`. -/
def createFileStoredInDB : Option Nat → Option Bool
  | none => none
  | some p => some (p == 14)

/-! ## Invariants used by the claims -/

/-- Encryption-position invariant: a live keystream is positioned exactly at
the writer's current byte offset. -/
def encInvAt (w : W) : Prop := ∀ c, w.fw.enc = some (some c) → c = w.fw.pos

/-- Mode-exclusion invariant of the spec: small-file mode implies no open
block writer. -/
def ModeInv (w : W) : Prop := w.fw.storeInDB = true → w.fw.blockWriter = none

/-- Fields that the streaming machinery never changes: the mode flag, the
small-file buffer, the path name, the `closeInt` counter, and whether
encryption is installed. -/
def Pres (w w2 : W) : Prop :=
  w2.fw.storeInDB = w.fw.storeInDB ∧ w2.fw.smallFileBuffer = w.fw.smallFileBuffer ∧
  w2.fw.name = w.fw.name ∧ w2.closeIntCalls = w.closeIntCalls ∧
  w2.fw.enc.isSome = w.fw.enc.isSome

/-- Frame of the block-lifecycle operations: they additionally leave the
chunk log, the position, and the whole encryption state untouched. -/
def Frame (w w2 : W) : Prop :=
  Pres w w2 ∧ w2.chunks = w.chunks ∧ w2.fw.pos = w.fw.pos ∧ w2.fw.enc = w.fw.enc

/-- Bytes accepted by `Write` but not yet streamed: the small-file buffer
length while small-file mode is active, else nothing. -/
def pendingLen (w : W) : Nat :=
  if w.fw.storeInDB then w.fw.smallFileBuffer.length else 0

/-- The writer state at the moment the small-file overflow path of `Write`
calls `writeInternal`: buffer extended by the caller's bytes, mode off. -/
def spillState (w : W) (b : List Nat) : W :=
  { w with fw := { w.fw with smallFileBuffer := w.fw.smallFileBuffer ++ b, storeInDB := false } }

/-! ## Concrete oracle environments and states for witnesses -/

/-- A benign environment: the block writer consumes everything offered, every
RPC succeeds, `complete` immediately reports `result = true`. -/
def env0 : Env where
  bwWrite := fun _ m => (m, .ok)
  bwClose := fun _ => none
  bwFlush := fun _ => none
  abExec := fun _ => none
  dialErr := fun _ => none
  setDl := fun _ => none
  mkStream := fun _ => none
  cpExec := fun _ => .result true

/-- A fresh writer created with the inline storage policy (small-file mode),
as built by `CreateFile` (file_writer.go:111-121). -/
def w0small : W := ⟨⟨"f", true, [], 0, none, none⟩, 0, 0, 0, 0, 0, 0, 0, 0, [], 0⟩

/-- A fresh writer created with a normal storage policy. -/
def w0plain : W := ⟨⟨"f", false, [], 0, none, none⟩, 0, 0, 0, 0, 0, 0, 0, 0, [], 0⟩

/-- Environment whose `complete` RPC always replies `result = false`. -/
def envAllFalse : Env :=
  { env0 with cpExec := fun _ => .result false }

/-- Environment whose block writer always fails without consuming bytes. -/
def envC3 : Env :=
  { env0 with bwWrite := fun _ _ => (0, .fail "io fail") }

/-- Small-file writer with one buffered byte. -/
def wBuf1 : W := ⟨⟨"f", true, [1], 0, none, none⟩, 0, 0, 0, 0, 0, 0, 0, 0, [], 0⟩

/-- Environment whose DataNode dialer fails. -/
def envC4 : Env :=
  { env0 with dialErr := fun _ => some "dial refused" }

/-- A buffer filled to exactly `MaxSmallFileSize` bytes. -/
def bufBig : List Nat := List.replicate 65536 0

/-- Small-file writer whose buffer is full to the cap. -/
def wBig : W := ⟨⟨"f", true, bufBig, 0, none, none⟩, 0, 0, 0, 0, 0, 0, 0, 0, [], 0⟩

/-- The writer state after the overflowing `Write` of one more byte under
`envC4`: mode off, buffer extended, allocation failed before any streaming. -/
def wBigAfter : W :=
  ⟨⟨"f", false, bufBig ++ [9], 0, none, none⟩, 0, 0, 0, 1, 1, 0, 0, 0, [], 0⟩

/-- Environment for the partial-count scenario: the first block-writer write
consumes one byte and reports end-of-block; the second keystream construction
fails. -/
def envC5 : Env :=
  { env0 with
    bwWrite := fun i m => if i = 0 then (min 1 m, .endOfBlock) else (m, .ok),
    mkStream := fun i => if i = 0 then none else some "keystream failure" }

/-- Encrypted writer with an open block and no live keystream. -/
def wC5 : W := ⟨⟨"f", false, [], 0, some (), some none⟩, 0, 0, 0, 0, 0, 0, 0, 0, [], 0⟩

/-- Environment for the short-write scenario: the first block-writer write
consumes one byte and reports end-of-block, later writes consume all. -/
def envC8 : Env :=
  { env0 with bwWrite := fun i m => if i = 0 then (min 1 m, .endOfBlock) else (m, .ok) }

/-- Encrypted writer at position 10 with an open block and no live
keystream. -/
def wC8 : W := ⟨⟨"f", false, [], 10, some (), some none⟩, 0, 0, 0, 0, 0, 0, 0, 0, [], 0⟩

/-- Result state of the short-write scenario. -/
def wC8x : W := ((writeInternal envC8 5 wC8 [5, 6]).getD (0, none, wC8)).2.2

/-- First chunk streamed in the short-write scenario. -/
def chC8 : Chunk := (wC8x.chunks.getD 0 ⟨0, none, []⟩)

/-- Environment whose first `complete` RPC fails with a plain error. -/
def envBoom : Env :=
  { env0 with cpExec := fun i => if i = 0 then .err "boom" else .result true }

/-- The error returned by `closeInt` under `envBoom`. -/
def eBoom : GoErr := .pathError "create" "f" (.msg "boom")

/-- State after the failing `closeInt` under `envBoom`. -/
def wBoom1 : W := (closeInt envBoom w0plain).2

/-- Environment whose first `complete` RPC fails with an
`OutOfDBExtentsException` and whose second succeeds. -/
def envOODB : Env :=
  { env0 with cpExec := fun i => if i = 0 then .err "OutOfDBExtentsException" else .result true }

/-- Writer state after the overflow-free writes `[7]` then `[8, 9]` on a
fresh small-file writer. -/
def wC2 : W := ⟨⟨"f", true, [7, 8, 9], 0, none, none⟩, 0, 0, 0, 0, 0, 0, 0, 0, [], 0⟩

/-- Writer state after the overflow-free write `[7]` on a fresh small-file
writer. -/
def w7 : W := ⟨⟨"f", true, [7], 0, none, none⟩, 0, 0, 0, 0, 0, 0, 0, 0, [], 0⟩

/-- Result state of a successful `Flush` spill of `wBuf1` under `env0`. -/
def wBuf1x : W := ((Flush env0 1 wBuf1).getD (none, wBuf1)).2

end HopsFS

namespace HopsFS

/-! ## Frame lemmas for the block lifecycle -/

theorem pres_refl (w : W) : Pres w w := ⟨rfl, rfl, rfl, rfl, rfl⟩

theorem pres_trans {w1 w2 w3 : W} (h1 : Pres w1 w2) (h2 : Pres w2 w3) : Pres w1 w3 := by
  obtain ⟨a1, b1, c1, d1, e1⟩ := h1
  obtain ⟨a2, b2, c2, d2, e2⟩ := h2
  exact ⟨a2.trans a1, b2.trans b1, c2.trans c1, d2.trans d1, e2.trans e1⟩

theorem frame_refl (w : W) : Frame w w := ⟨pres_refl w, rfl, rfl, rfl⟩

theorem frame_trans {w1 w2 w3 : W} (h1 : Frame w1 w2) (h2 : Frame w2 w3) : Frame w1 w3 :=
  ⟨pres_trans h1.1 h2.1, h2.2.1.trans h1.2.1, h2.2.2.1.trans h1.2.2.1, h2.2.2.2.trans h1.2.2.2⟩

theorem closeBlock_frame (env : Env) (w : W) (r : Option GoErr) (w2 : W)
    (h : closeBlock env w = (r, w2)) : Frame w w2 := by
  unfold closeBlock at h
  cases hc : env.bwClose w.cC <;> rw [hc] at h <;>
    cases h <;> exact ⟨⟨rfl, rfl, rfl, rfl, rfl⟩, rfl, rfl, rfl⟩

theorem startNewBlockTail_frame (env : Env) (w : W) (r : Option GoErr) (w2 : W)
    (h : startNewBlockTail env w = (r, w2)) : Frame w w2 := by
  simp only [startNewBlockTail] at h
  split at h
  · cases h; exact ⟨⟨rfl, rfl, rfl, rfl, rfl⟩, rfl, rfl, rfl⟩
  · split at h
    · cases h; exact ⟨⟨rfl, rfl, rfl, rfl, rfl⟩, rfl, rfl, rfl⟩
    · split at h <;> cases h <;> exact ⟨⟨rfl, rfl, rfl, rfl, rfl⟩, rfl, rfl, rfl⟩

theorem startNewBlock_frame (env : Env) (w : W) (r : Option GoErr) (w2 : W)
    (h : startNewBlock env w = (r, w2)) : Frame w w2 := by
  unfold startNewBlock at h
  split at h
  · rcases hc : closeBlock env w with ⟨rc, wc⟩
    rw [hc] at h
    cases rc with
    | some e => cases h; exact closeBlock_frame env w _ _ hc
    | none => exact frame_trans (closeBlock_frame env w _ _ hc) (startNewBlockTail_frame env wc _ _ h)
  · exact startNewBlockTail_frame env w _ _ h

theorem frame_encInvAt {w w2 : W} (hf : Frame w w2) (h : encInvAt w) : encInvAt w2 := by
  intro c hc
  rw [hf.2.2.2] at hc
  rw [hf.2.2.1]
  exact h c hc

/-! ## Lemmas about one iteration of the `writeInternal` loop -/

theorem wiStepFinish_toW (env : Env) (e : Option GoErr) (off : Nat) (w : W) :
    Frame w (wiStepFinish env e off w).toW := by
  cases e with
  | none => exact frame_refl w
  | some ge =>
    cases ge with
    | endOfBlock =>
      rcases hs : startNewBlock env w with ⟨r, w2⟩
      cases r <;> simp only [wiStepFinish, hs, StepOut.toW] <;>
        exact startNewBlock_frame env w _ _ hs
    | pathError op path c => exact frame_refl w
    | replicating => exact frame_refl w
    | shortWrite => exact frame_refl w
    | msg s => exact frame_refl w

theorem wiStepFinish_next (env : Env) (e : Option GoErr) (off : Nat) (w : W)
    (off2 : Nat) (w2 : W) (h : wiStepFinish env e off w = .next off2 w2) : off2 = off := by
  unfold wiStepFinish at h
  split at h
  · split at h
    · simp at h
    · simp only [StepOut.next.injEq] at h
      exact h.1.symm
  · simp at h
  · simp only [StepOut.next.injEq] at h
    exact h.1.symm

theorem wiStepFinish_chunks (env : Env) (e : Option GoErr) (off : Nat) (w : W) :
    (wiStepFinish env e off w).toW.chunks = w.chunks :=
  (wiStepFinish_toW env e off w).2.1

theorem wiStepFinish_pos (env : Env) (e : Option GoErr) (off : Nat) (w : W) :
    (wiStepFinish env e off w).toW.fw.pos = w.fw.pos :=
  (wiStepFinish_toW env e off w).2.2.1

theorem wiStepFinish_enc (env : Env) (e : Option GoErr) (off : Nat) (w : W) :
    (wiStepFinish env e off w).toW.fw.enc = w.fw.enc :=
  (wiStepFinish_toW env e off w).2.2.2

theorem wiStepEnc_spec (env : Env) (b : List Nat) (off : Nat) (w : W) (c : Nat)
    (hwf : EnvWF env) (henc : w.fw.enc.isSome = true) :
    ∃ n, n ≤ b.length - off ∧
      (wiStepEnc env b off w c).toW.chunks
        = w.chunks ++ [⟨w.fw.pos, some c, (b.drop off).take n⟩] ∧
      (wiStepEnc env b off w c).toW.fw.pos = w.fw.pos + n ∧
      ((b.drop off).take n).length = n ∧
      Pres w (wiStepEnc env b off w c).toW ∧
      (∀ off2 w2, wiStepEnc env b off w c = .next off2 w2 → off2 = off + n) ∧
      (∀ c2, (wiStepEnc env b off w c).toW.fw.enc = some (some c2) →
        c2 = c + n ∧ n = b.length - off) := by
  rcases hbw : env.bwWrite w.cW (b.length - off) with ⟨n, be⟩
  have hn : n ≤ b.length - off := by
    have h := hwf w.cW (b.length - off)
    rw [hbw] at h
    exact h
  have hlen : ((b.drop off).take n).length = n := by
    rw [List.length_take, List.length_drop]
    omega
  refine ⟨n, hn, ?_, ?_, hlen, ?_, ?_, ?_⟩ <;> simp only [wiStepEnc, hbw]
  · rw [wiStepFinish_chunks]
  · rw [wiStepFinish_pos]
  · refine pres_trans ?_ (wiStepFinish_toW env _ _ _).1
    exact ⟨rfl, rfl, rfl, rfl, by simp [henc]⟩
  · intro off2 w2 h
    exact wiStepFinish_next env _ _ _ off2 w2 h
  · intro c2 hc2
    rw [wiStepFinish_enc] at hc2
    simp only [Option.some.injEq] at hc2
    split at hc2
    · simp only [Option.some.injEq] at hc2
      omega
    · simp at hc2

theorem wiStepPlain_spec (env : Env) (b : List Nat) (off : Nat) (w : W)
    (hwf : EnvWF env) :
    ∃ n, n ≤ b.length - off ∧
      (wiStepPlain env b off w).toW.chunks
        = w.chunks ++ [⟨w.fw.pos, none, (b.drop off).take n⟩] ∧
      (wiStepPlain env b off w).toW.fw.pos = w.fw.pos + n ∧
      ((b.drop off).take n).length = n ∧
      Pres w (wiStepPlain env b off w).toW ∧
      (∀ off2 w2, wiStepPlain env b off w = .next off2 w2 → off2 = off + n) ∧
      (wiStepPlain env b off w).toW.fw.enc = w.fw.enc := by
  rcases hbw : env.bwWrite w.cW (b.length - off) with ⟨n, be⟩
  have hn : n ≤ b.length - off := by
    have h := hwf w.cW (b.length - off)
    rw [hbw] at h
    exact h
  have hlen : ((b.drop off).take n).length = n := by
    rw [List.length_take, List.length_drop]
    omega
  refine ⟨n, hn, ?_, ?_, hlen, ?_, ?_, ?_⟩ <;> simp only [wiStepPlain, hbw]
  · rw [wiStepFinish_chunks]
  · rw [wiStepFinish_pos]
  · refine pres_trans ?_ (wiStepFinish_toW env _ _ _).1
    exact ⟨rfl, rfl, rfl, rfl, rfl⟩
  · intro off2 w2 h
    exact wiStepFinish_next env _ _ _ off2 w2 h
  · rw [wiStepFinish_enc]

theorem totLen_nil : totLen [] = 0 := rfl

theorem concatData_nil : concatData [] = [] := rfl

theorem totLen_singleton (ch : Chunk) : totLen [ch] = ch.data.length := by
  simp [totLen]

theorem concatData_singleton (ch : Chunk) : concatData [ch] = ch.data := by
  simp [concatData]

theorem totLen_append (cs1 cs2 : List Chunk) :
    totLen (cs1 ++ cs2) = totLen cs1 + totLen cs2 := by
  simp [totLen]

theorem concatData_append (cs1 cs2 : List Chunk) :
    concatData (cs1 ++ cs2) = concatData cs1 ++ concatData cs2 := by
  simp [concatData]

theorem wiStep_spec (env : Env) (b : List Nat) (off : Nat) (w : W)
    (hwf : EnvWF env) (hoff : off < b.length) :
    ∃ cs, (wiStep env b off w).toW.chunks = w.chunks ++ cs ∧
      (wiStep env b off w).toW.fw.pos = w.fw.pos + totLen cs ∧
      concatData cs = (b.drop off).take (totLen cs) ∧
      off + totLen cs ≤ b.length ∧
      Pres w (wiStep env b off w).toW ∧
      (∀ off2 w2, wiStep env b off w = .next off2 w2 → off2 = off + totLen cs) ∧
      (encInvAt w → encInvAt (wiStep env b off w).toW ∧
        ∀ ch ∈ cs, ch.ksPos.isSome = true → ch.ksPos = some ch.filePos) ∧
      (w.fw.enc.isSome = true → ∀ ch ∈ cs, ch.ksPos.isSome = true) := by
  cases henc : w.fw.enc with
  | none =>
    obtain ⟨n, hn, hch, hpos, hlen, hpres, hnext, hencEq⟩ := wiStepPlain_spec env b off w hwf
    have hred : wiStep env b off w = wiStepPlain env b off w := by
      simp [wiStep, henc]
    have htot : totLen [(⟨w.fw.pos, none, (b.drop off).take n⟩ : Chunk)] = n := by
      rw [totLen_singleton]
      exact hlen
    refine ⟨[⟨w.fw.pos, none, (b.drop off).take n⟩], ?_, ?_, ?_, ?_, ?_, ?_, ?_, ?_⟩ <;>
      (try rw [hred]) <;> (try rw [htot])
    · exact hch
    · exact hpos
    · rw [concatData_singleton]
    · omega
    · exact hpres
    · exact hnext
    · intro _
      constructor
      · intro c0 hc0
        rw [hencEq, henc] at hc0
        simp at hc0
      · intro ch hch2 hsome
        simp at hch2
        rw [hch2] at hsome
        simp at hsome
    · intro hs
      simp at hs
  | some streamOpt =>
    cases streamOpt with
    | some c =>
      have hisSome : w.fw.enc.isSome = true := by rw [henc]; rfl
      obtain ⟨n, hn, hch, hpos, hlen, hpres, hnext, hkept⟩ :=
        wiStepEnc_spec env b off w c hwf hisSome
      have hred : wiStep env b off w = wiStepEnc env b off w c := by
        simp [wiStep, henc]
      have htot : totLen [(⟨w.fw.pos, some c, (b.drop off).take n⟩ : Chunk)] = n := by
        rw [totLen_singleton]
        exact hlen
      refine ⟨[⟨w.fw.pos, some c, (b.drop off).take n⟩], ?_, ?_, ?_, ?_, ?_, ?_, ?_, ?_⟩ <;>
        (try rw [hred]) <;> (try rw [htot])
      · exact hch
      · exact hpos
      · rw [concatData_singleton]
      · omega
      · exact hpres
      · exact hnext
      · intro hinv
        have hc : c = w.fw.pos := hinv c henc
        constructor
        · intro c2 hc2
          obtain ⟨h1, h2⟩ := hkept c2 hc2
          rw [hpos]
          omega
        · intro ch hch2 _
          simp at hch2
          rw [hch2]
          simp [hc]
      · intro _ ch hch2
        simp at hch2
        rw [hch2]
        rfl
    | none =>
      cases hmk : env.mkStream w.cM with
      | some s =>
        have hred : wiStep env b off w = .ret 0 (.msg s) { w with cM := w.cM + 1 } := by
          simp [wiStep, henc, hmk]
        refine ⟨[], ?_, ?_, ?_, ?_, ?_, ?_, ?_, ?_⟩ <;> (try rw [hred])
        · simp [StepOut.toW]
        · simp [StepOut.toW, totLen_nil]
        · simp [concatData_nil, totLen_nil]
        · simp [totLen_nil]
          omega
        · exact ⟨rfl, rfl, rfl, rfl, rfl⟩
        · intro off2 w2 h
          simp at h
        · intro _
          constructor
          · intro c0 hc0
            simp only [StepOut.toW] at hc0
            rw [henc] at hc0
            simp at hc0
          · intro ch hch2
            simp at hch2
        · intro _ ch hch2
          simp at hch2
      | none =>
        have hred : wiStep env b off w
            = wiStepEnc env b off
                { w with cM := w.cM + 1, fw := { w.fw with enc := some (some w.fw.pos) } }
                w.fw.pos := by
          simp [wiStep, henc, hmk]
        obtain ⟨n, hn, hch, hpos, hlen, hpres, hnext, hkept⟩ :=
          wiStepEnc_spec env b off
            { w with cM := w.cM + 1, fw := { w.fw with enc := some (some w.fw.pos) } }
            w.fw.pos hwf rfl
        have htot : totLen [(⟨w.fw.pos, some w.fw.pos, (b.drop off).take n⟩ : Chunk)] = n := by
          rw [totLen_singleton]
          exact hlen
        refine ⟨[⟨w.fw.pos, some w.fw.pos, (b.drop off).take n⟩], ?_, ?_, ?_, ?_, ?_, ?_, ?_, ?_⟩ <;>
          (try rw [hred]) <;> (try rw [htot])
        · exact hch
        · exact hpos
        · rw [concatData_singleton]
        · omega
        · refine pres_trans ?_ hpres
          exact ⟨rfl, rfl, rfl, rfl, by simp [henc]⟩
        · exact hnext
        · intro _
          constructor
          · intro c2 hc2
            obtain ⟨h1, h2⟩ := hkept c2 hc2
            rw [hpos]
            dsimp only
            omega
          · intro ch hch2 _
            simp at hch2
            rw [hch2]
        · intro _ ch hch2
          simp at hch2
          rw [hch2]
          rfl

theorem wiLoop_spec (env : Env) (b : List Nat) (hwf : EnvWF env) :
    ∀ fuel off w n e w2, off ≤ b.length →
      wiLoop env b fuel off w = some (n, e, w2) →
      ∃ cs, w2.chunks = w.chunks ++ cs ∧
        w2.fw.pos = w.fw.pos + totLen cs ∧
        concatData cs = (b.drop off).take (totLen cs) ∧
        off + totLen cs ≤ b.length ∧
        Pres w w2 ∧
        (e = none → n = b.length ∧ off + totLen cs = b.length) ∧
        (encInvAt w → encInvAt w2 ∧
          ∀ ch ∈ cs, ch.ksPos.isSome = true → ch.ksPos = some ch.filePos) ∧
        (w.fw.enc.isSome = true → ∀ ch ∈ cs, ch.ksPos.isSome = true) := by
  intro fuel
  induction fuel with
  | zero =>
    intro off w n e w2 hle h
    simp only [wiLoop] at h
    split at h
    · simp at h
    · rename_i hnlt
      simp only [Option.some.injEq, Prod.mk.injEq] at h
      obtain ⟨h1, h2, h3⟩ := h
      subst h1
      subst h3
      refine ⟨[], by simp, by simp [totLen_nil], by simp [concatData_nil, totLen_nil], ?_, pres_refl w, ?_, ?_, ?_⟩
      · simp [totLen_nil]
        omega
      · intro _
        simp [totLen_nil]
        omega
      · intro hinv
        exact ⟨hinv, by intro ch hch; simp at hch⟩
      · intro _ ch hch
        simp at hch
  | succ fuel ih =>
    intro off w n e w2 hle h
    simp only [wiLoop] at h
    split at h
    · rename_i hlt
      obtain ⟨cs1, sch, spos, scat, sbound, spres, snext, sencI, sencS⟩ :=
        wiStep_spec env b off w hwf hlt
      cases hs : wiStep env b off w with
      | ret m e' w' =>
        rw [hs] at sch spos spres sencI
        simp only [StepOut.toW] at sch spos spres sencI
        simp only [hs] at h
        simp only [Option.some.injEq, Prod.mk.injEq] at h
        obtain ⟨h1, h2, h3⟩ := h
        subst h1
        subst h3
        refine ⟨cs1, sch, spos, scat, sbound, spres, ?_, sencI, sencS⟩
        intro he
        rw [← h2] at he
        simp at he
      | next off2 w' =>
        rw [hs] at sch spos spres sencI
        simp only [StepOut.toW] at sch spos spres sencI
        simp only [hs] at h
        have hoff2 : off2 = off + totLen cs1 := snext off2 w' hs
        have hle2 : off2 ≤ b.length := by omega
        obtain ⟨cs2, ich, ipos, icat, ibound, ipres, inone, iencI, iencS⟩ :=
          ih off2 w' n e w2 hle2 h
        refine ⟨cs1 ++ cs2, ?_, ?_, ?_, ?_, pres_trans spres ipres, ?_, ?_, ?_⟩
        · rw [ich, sch, List.append_assoc]
        · rw [ipos, spos, totLen_append, Nat.add_assoc]
        · have hdd : List.drop (off + totLen cs1) b = List.drop (totLen cs1) (List.drop off b) := by
            rw [List.drop_drop, Nat.add_comm]
          rw [concatData_append, totLen_append, scat, icat, hoff2, hdd, List.take_add]
        · rw [totLen_append]
          omega
        · intro he
          obtain ⟨hn, hsum⟩ := inone he
          rw [totLen_append]
          omega
        · intro hinv
          obtain ⟨hinv1, hks1⟩ := sencI hinv
          obtain ⟨hinv2, hks2⟩ := iencI hinv1
          refine ⟨hinv2, ?_⟩
          intro ch hch hsome
          rcases List.mem_append.mp hch with hm | hm
          · exact hks1 ch hm hsome
          · exact hks2 ch hm hsome
        · intro hsome
          have hsome2 : w'.fw.enc.isSome = true := by
            rw [spres.2.2.2.2]
            exact hsome
          intro ch hch
          rcases List.mem_append.mp hch with hm | hm
          · exact sencS hsome ch hm
          · exact iencS hsome2 ch hm
    · rename_i hnlt
      simp only [Option.some.injEq, Prod.mk.injEq] at h
      obtain ⟨h1, h2, h3⟩ := h
      subst h1
      subst h3
      refine ⟨[], by simp, by simp [totLen_nil], by simp [concatData_nil, totLen_nil], ?_, pres_refl w, ?_, ?_, ?_⟩
      · simp [totLen_nil]
        omega
      · intro _
        simp [totLen_nil]
        omega
      · intro hinv
        exact ⟨hinv, by intro ch hch; simp at hch⟩
      · intro _ ch hch
        simp at hch

theorem writeInternal_spec (env : Env) (fuel : Nat) (w : W) (b : List Nat)
    (n : Nat) (e : Option GoErr) (w2 : W) (hwf : EnvWF env)
    (h : writeInternal env fuel w b = some (n, e, w2)) :
    ∃ cs, w2.chunks = w.chunks ++ cs ∧
      w2.fw.pos = w.fw.pos + totLen cs ∧
      concatData cs = b.take (totLen cs) ∧
      totLen cs ≤ b.length ∧
      Pres w w2 ∧
      (e = none → n = b.length ∧ totLen cs = b.length) ∧
      (encInvAt w → encInvAt w2 ∧
        ∀ ch ∈ cs, ch.ksPos.isSome = true → ch.ksPos = some ch.filePos) ∧
      (w.fw.enc.isSome = true → ∀ ch ∈ cs, ch.ksPos.isSome = true) := by
  unfold writeInternal at h
  split at h
  · rcases hsb : startNewBlock env w with ⟨r, w1⟩
    rw [hsb] at h
    have hf := startNewBlock_frame env w _ _ hsb
    cases r with
    | some e0 =>
      simp only [Option.some.injEq, Prod.mk.injEq] at h
      obtain ⟨h1, h2, h3⟩ := h
      subst h1
      subst h3
      refine ⟨[], ?_, ?_, by simp [concatData_nil, totLen_nil], by simp [totLen_nil], hf.1, ?_, ?_, ?_⟩
      · rw [hf.2.1]
        simp
      · rw [hf.2.2.1]
        simp [totLen_nil]
      · intro he
        rw [← h2] at he
        simp at he
      · intro hinv
        exact ⟨frame_encInvAt hf hinv, by intro ch hch; simp at hch⟩
      · intro _ ch hch
        simp at hch
    | none =>
      obtain ⟨cs, lch, lpos, lcat, lbound, lpres, lnone, lencI, lencS⟩ :=
        wiLoop_spec env b hwf fuel 0 w1 n e w2 (Nat.zero_le _) h
      refine ⟨cs, ?_, ?_, ?_, by omega, pres_trans hf.1 lpres, ?_, ?_, ?_⟩
      · rw [lch, hf.2.1]
      · rw [lpos, hf.2.2.1]
      · rw [lcat, List.drop_zero]
      · intro he
        obtain ⟨hn, hsum⟩ := lnone he
        exact ⟨hn, by omega⟩
      · intro hinv
        exact lencI (frame_encInvAt hf hinv)
      · intro hsome
        refine lencS ?_
        rw [hf.2.2.2]
        exact hsome
  · obtain ⟨cs, lch, lpos, lcat, lbound, lpres, lnone, lencI, lencS⟩ :=
      wiLoop_spec env b hwf fuel 0 w n e w2 (Nat.zero_le _) h
    refine ⟨cs, lch, lpos, ?_, by omega, lpres, ?_, lencI, lencS⟩
    · rw [lcat, List.drop_zero]
    · intro he
      obtain ⟨hn, hsum⟩ := lnone he
      exact ⟨hn, by omega⟩

/-! ## Preservation lemmas that need no environment assumptions -/

theorem wiStepPlain_pres (env : Env) (b : List Nat) (off : Nat) (w : W) :
    Pres w (wiStepPlain env b off w).toW := by
  simp only [wiStepPlain]
  exact pres_trans ⟨rfl, rfl, rfl, rfl, rfl⟩ (wiStepFinish_toW env _ _ _).1

theorem wiStepEnc_pres (env : Env) (b : List Nat) (off : Nat) (w : W) (c : Nat)
    (henc : w.fw.enc.isSome = true) : Pres w (wiStepEnc env b off w c).toW := by
  simp only [wiStepEnc]
  refine pres_trans ?_ (wiStepFinish_toW env _ _ _).1
  exact ⟨rfl, rfl, rfl, rfl, by simp [henc]⟩

theorem wiStep_pres (env : Env) (b : List Nat) (off : Nat) (w : W) :
    Pres w (wiStep env b off w).toW := by
  cases henc : w.fw.enc with
  | none =>
    have hred : wiStep env b off w = wiStepPlain env b off w := by simp [wiStep, henc]
    rw [hred]
    exact wiStepPlain_pres env b off w
  | some streamOpt =>
    cases streamOpt with
    | some c =>
      have hred : wiStep env b off w = wiStepEnc env b off w c := by simp [wiStep, henc]
      rw [hred]
      exact wiStepEnc_pres env b off w c (by rw [henc]; rfl)
    | none =>
      cases hmk : env.mkStream w.cM with
      | some s =>
        have hred : wiStep env b off w = .ret 0 (.msg s) { w with cM := w.cM + 1 } := by
          simp [wiStep, henc, hmk]
        rw [hred]
        exact ⟨rfl, rfl, rfl, rfl, rfl⟩
      | none =>
        have hred : wiStep env b off w
            = wiStepEnc env b off
                { w with cM := w.cM + 1, fw := { w.fw with enc := some (some w.fw.pos) } }
                w.fw.pos := by
          simp [wiStep, henc, hmk]
        rw [hred]
        refine pres_trans ?_ (wiStepEnc_pres env b off _ w.fw.pos rfl)
        exact ⟨rfl, rfl, rfl, rfl, by simp [henc]⟩

theorem wiLoop_pres (env : Env) (b : List Nat) :
    ∀ fuel off w n e w2, wiLoop env b fuel off w = some (n, e, w2) → Pres w w2 := by
  intro fuel
  induction fuel with
  | zero =>
    intro off w n e w2 h
    simp only [wiLoop] at h
    split at h
    · simp at h
    · simp only [Option.some.injEq, Prod.mk.injEq] at h
      rw [← h.2.2]
      exact pres_refl w
  | succ fuel ih =>
    intro off w n e w2 h
    simp only [wiLoop] at h
    split at h
    · have hp := wiStep_pres env b off w
      cases hs : wiStep env b off w with
      | ret m e' w' =>
        rw [hs] at hp
        simp only [StepOut.toW] at hp
        simp only [hs] at h
        simp only [Option.some.injEq, Prod.mk.injEq] at h
        rw [← h.2.2]
        exact hp
      | next off2 w' =>
        rw [hs] at hp
        simp only [StepOut.toW] at hp
        simp only [hs] at h
        exact pres_trans hp (ih off2 w' n e w2 h)
    · simp only [Option.some.injEq, Prod.mk.injEq] at h
      rw [← h.2.2]
      exact pres_refl w

theorem writeInternal_pres (env : Env) (fuel : Nat) (w : W) (b : List Nat)
    (n : Nat) (e : Option GoErr) (w2 : W)
    (h : writeInternal env fuel w b = some (n, e, w2)) : Pres w w2 := by
  unfold writeInternal at h
  split at h
  · rcases hsb : startNewBlock env w with ⟨r, w1⟩
    rw [hsb] at h
    have hf := startNewBlock_frame env w _ _ hsb
    cases r with
    | some e0 =>
      simp only [Option.some.injEq, Prod.mk.injEq] at h
      rw [← h.2.2]
      exact hf.1
    | none => exact pres_trans hf.1 (wiLoop_pres env b fuel 0 w1 n e w2 h)
  · exact wiLoop_pres env b fuel 0 w n e w2 h

/-! ## Unfolding lemmas for `Write` -/

theorem Write_fits (env : Env) (fuel : Nat) (w : W) (b : List Nat)
    (hs : w.fw.storeInDB = true)
    (hfit : (w.fw.smallFileBuffer ++ b).length ≤ MaxSmallFileSize) :
    Write env fuel w b
      = some (b.length, none,
          { w with fw := { w.fw with smallFileBuffer := w.fw.smallFileBuffer ++ b } }) := by
  unfold Write
  rw [if_pos (by rw [hs])]
  rw [if_pos hfit]

theorem Write_overflow (env : Env) (fuel : Nat) (w : W) (b : List Nat)
    (hs : w.fw.storeInDB = true)
    (hover : MaxSmallFileSize < w.fw.smallFileBuffer.length + b.length) :
    Write env fuel w b
      = match writeInternal env fuel (spillState w b) (w.fw.smallFileBuffer ++ b) with
        | none => none
        | some (_, e, w2) => some (b.length, e, w2) := by
  unfold Write
  rw [if_pos (by rw [hs])]
  rw [if_neg (by rw [List.length_append]; omega)]
  rfl

theorem Write_stream (env : Env) (fuel : Nat) (w : W) (b : List Nat)
    (hs : w.fw.storeInDB = false) :
    Write env fuel w b = writeInternal env fuel w b := by
  unfold Write
  rw [if_neg (by rw [hs]; simp)]

/-! ## Field accounting for `closeInt` -/

theorem closeInt_spec (env : Env) (w : W) (r : Option GoErr) (w2 : W)
    (h : closeInt env w = (r, w2)) :
    w2.fw.storeInDB = w.fw.storeInDB ∧ w2.fw.smallFileBuffer = w.fw.smallFileBuffer ∧
    w2.fw.name = w.fw.name ∧ w2.fw.pos = w.fw.pos ∧ w2.fw.enc = w.fw.enc ∧
    w2.chunks = w.chunks ∧ w2.closeIntCalls = w.closeIntCalls + 1 ∧
    (w2.fw.blockWriter = w.fw.blockWriter ∨ w2.fw.blockWriter = none) := by
  simp only [closeInt, closeBlock] at h
  split at h
  · cases hbc : env.bwClose w.cC with
    | some s =>
      simp only [hbc] at h
      cases h
      exact ⟨rfl, rfl, rfl, rfl, rfl, rfl, rfl, Or.inl rfl⟩
    | none =>
      simp only [hbc] at h
      cases h
      exact ⟨rfl, rfl, rfl, rfl, rfl, rfl, rfl, Or.inr rfl⟩
  · cases h
    exact ⟨rfl, rfl, rfl, rfl, rfl, rfl, rfl, Or.inl rfl⟩

/-! ## Properties of the retry loops -/

theorem abLoop_attempts (exec : Nat → Option String) :
    ∀ fuel i delay sleeps last,
      (abLoop exec fuel i delay sleeps last).attempts ≤ i + fuel := by
  intro fuel
  induction fuel with
  | zero => intro i delay sleeps last; simp [abLoop]
  | succ fuel ih =>
    intro i delay sleeps last
    simp only [abLoop]
    cases exec i with
    | some s =>
      dsimp only
      split
      · have h := ih (i + 1) (delay * 2) (delay :: sleeps) (some s)
        omega
      · dsimp only
        omega
    | none =>
      dsimp only
      omega

theorem abLoop_retry (exec : Nat → Option String) :
    ∀ fuel i delay sleeps last,
      (∀ j, j < i → ∃ s, exec j = some s ∧ strContains s "NotReplicatedYetException" = true) →
      ∀ j, j + 1 < (abLoop exec fuel i delay sleeps last).attempts →
        ∃ s, exec j = some s ∧ strContains s "NotReplicatedYetException" = true := by
  intro fuel
  induction fuel with
  | zero =>
    intro i delay sleeps last hpre j hj
    simp only [abLoop] at hj
    exact hpre j (by omega)
  | succ fuel ih =>
    intro i delay sleeps last hpre j hj
    simp only [abLoop] at hj
    cases hx : exec i with
    | some s =>
      rw [hx] at hj
      dsimp only at hj
      by_cases hc : strContains s "NotReplicatedYetException" = true
      · rw [if_pos hc] at hj
        refine ih (i + 1) (delay * 2) (delay :: sleeps) (some s) ?_ j hj
        intro k hk
        by_cases hki : k < i
        · exact hpre k hki
        · have hkeq : k = i := by omega
          exact hkeq ▸ ⟨s, hx, hc⟩
      · rw [if_neg hc] at hj
        dsimp only at hj
        exact hpre j (by omega)
    | none =>
      rw [hx] at hj
      dsimp only at hj
      exact hpre j (by omega)

theorem abLoop_sleeps (exec : Nat → Option String) :
    ∀ fuel i delay sleeps,
      sleeps.reverse = (List.range sleeps.length).map (fun k => 400 * 2 ^ k) →
      delay = 400 * 2 ^ sleeps.length →
      ∀ last, (abLoop exec fuel i delay sleeps last).sleeps
        = (List.range (abLoop exec fuel i delay sleeps last).sleeps.length).map
            (fun k => 400 * 2 ^ k) := by
  intro fuel
  induction fuel with
  | zero =>
    intro i delay sleeps hrev hdel last
    simp only [abLoop]
    rw [hrev]
    simp
  | succ fuel ih =>
    intro i delay sleeps hrev hdel last
    simp only [abLoop]
    cases exec i with
    | some s =>
      dsimp only
      split
      · refine ih (i + 1) (delay * 2) (delay :: sleeps) ?_ ?_ (some s)
        · rw [List.reverse_cons, hrev, List.length_cons, List.range_succ, List.map_append,
            hdel]
          simp
        · rw [List.length_cons, hdel, Nat.pow_succ]
          ring
      · dsimp only
        rw [hrev]
        simp
    | none =>
      dsimp only
      rw [hrev]
      simp

theorem cpLoop_attempts (name : String) (exec : Nat → CpResp) :
    ∀ fuel i slp sleeps, (cpLoop name exec fuel i slp sleeps).attempts ≤ i + fuel := by
  intro fuel
  induction fuel with
  | zero => intro i slp sleeps; simp [cpLoop]
  | succ fuel ih =>
    intro i slp sleeps
    simp only [cpLoop]
    cases exec i with
    | err s =>
      dsimp only
      omega
    | result bo =>
      cases bo with
      | true =>
        dsimp only
        omega
      | false =>
        have h := ih (i + 1) (slp * 2) (slp :: sleeps)
        dsimp only
        omega

theorem cpLoop_retry (name : String) (exec : Nat → CpResp) :
    ∀ fuel i slp sleeps,
      (∀ j, j < i → exec j = .result false) →
      ∀ j, j + 1 < (cpLoop name exec fuel i slp sleeps).attempts →
        exec j = .result false := by
  intro fuel
  induction fuel with
  | zero =>
    intro i slp sleeps hpre j hj
    simp only [cpLoop] at hj
    exact hpre j (by omega)
  | succ fuel ih =>
    intro i slp sleeps hpre j hj
    simp only [cpLoop] at hj
    cases hx : exec i with
    | err s =>
      rw [hx] at hj
      dsimp only at hj
      exact hpre j (by omega)
    | result bo =>
      cases bo with
      | true =>
        rw [hx] at hj
        dsimp only at hj
        exact hpre j (by omega)
      | false =>
        rw [hx] at hj
        dsimp only at hj
        refine ih (i + 1) (slp * 2) (slp :: sleeps) ?_ j hj
        intro k hk
        by_cases hki : k < i
        · exact hpre k hki
        · have hkeq : k = i := by omega
          exact hkeq ▸ hx

theorem cpLoop_sleeps (name : String) (exec : Nat → CpResp) :
    ∀ fuel i slp sleeps,
      sleeps.reverse = (List.range sleeps.length).map (fun k => 250 * 2 ^ k) →
      slp = 250 * 2 ^ sleeps.length →
      (cpLoop name exec fuel i slp sleeps).sleeps
        = (List.range (cpLoop name exec fuel i slp sleeps).sleeps.length).map
            (fun k => 250 * 2 ^ k) := by
  intro fuel
  induction fuel with
  | zero =>
    intro i slp sleeps hrev hdel
    simp only [cpLoop]
    rw [hrev]
    simp
  | succ fuel ih =>
    intro i slp sleeps hrev hdel
    simp only [cpLoop]
    cases exec i with
    | err s =>
      dsimp only
      rw [hrev]
      simp
    | result bo =>
      cases bo with
      | true =>
        dsimp only
        rw [hrev]
        simp
      | false =>
        refine ih (i + 1) (slp * 2) (slp :: sleeps) ?_ ?_
        · rw [List.reverse_cons, hrev, List.length_cons, List.range_succ, List.map_append,
            hdel]
          simp
        · rw [List.length_cons, hdel, Nat.pow_succ]
          ring

/-! ## Helper facts for witnesses -/

theorem env0_wf : EnvWF env0 := by
  intro i m
  exact Nat.le_refl m

theorem envC8_wf : EnvWF envC8 := by
  intro i m
  by_cases hi : i = 0
  · simp only [envC8, hi, if_pos]
    omega
  · simp [envC8, hi]

/-! ## Claim C1 -/

/-- Claim C1 (code bug): when all ten `complete` attempts during `Close`
return `result = false`, the code returns an `os.PathError` wrapping a fresh
`errors.New("failed to close the file")` instead of the documented sentinel
`ErrReplicating`, so `IsErrReplicating` is false on the returned error —
contradicting the claim and the doc comment of `Close` itself
(file_writer.go:321-327). The theorem evaluates `Close` (and the bare
`complete` loop) on the all-false oracle. -/
theorem c1_replicating_sentinel :
    (Close envAllFalse 1 w0plain).map Prod.fst
      = some (some (.pathError "create" "f" (.msg "failed to close the file")))
    ∧ (Close envAllFalse 1 w0plain).map (fun r => r.1.map IsErrReplicating)
      = some (some false)
    ∧ (completeLoop "f" (fun _ => .result false)).attempts = 10
    ∧ (completeLoop "f" (fun _ => .result false)).sleeps
      = [250, 500, 1000, 2000, 4000, 8000, 16000, 32000, 64000, 128000] := by
  decide

/-! ## Claim C2 -/

/-- Claim C2, counterexample: a single buffered `Write` of one byte on a
fresh small-file writer returns `(1, nil)` but leaves `pos = 0`, so `pos`
does not equal the sum of the returned counts. -/
theorem c2_pos_counterexample :
    (Write env0 1 w0small [7]).map (fun r => (r.1, r.2.1)) = some (1, none)
    ∧ (Write env0 1 w0small [7]).map (fun r => r.2.2.fw.pos) = some 0
    ∧ (Write env0 1 w0small [7]).map (fun r => r.2.2.fw.pos == r.1) = some false := by
  decide

theorem Write_pos_step (env : Env) (fuel : Nat) (w : W) (b : List Nat)
    (n : Nat) (w2 : W) (hwf : EnvWF env)
    (h : Write env fuel w b = some (n, none, w2)) :
    w2.fw.pos + pendingLen w2 = w.fw.pos + pendingLen w + n := by
  by_cases hs : w.fw.storeInDB = true
  · by_cases hfit : (w.fw.smallFileBuffer ++ b).length ≤ MaxSmallFileSize
    · rw [Write_fits env fuel w b hs hfit] at h
      simp only [Option.some.injEq, Prod.mk.injEq] at h
      obtain ⟨h1, h3⟩ := h
      subst h1
      rw [← h3.2]
      simp only [pendingLen, hs, if_true, List.length_append]
      omega
    · have hover : MaxSmallFileSize < w.fw.smallFileBuffer.length + b.length := by
        rw [List.length_append] at hfit
        omega
      rw [Write_overflow env fuel w b hs hover] at h
      rcases hwi : writeInternal env fuel (spillState w b) (w.fw.smallFileBuffer ++ b)
        with _ | ⟨m, e1, w3⟩
      · rw [hwi] at h
        simp at h
      · rw [hwi] at h
        simp only [Option.some.injEq, Prod.mk.injEq] at h
        obtain ⟨h1, h2, h3⟩ := h
        subst h1
        rw [h2] at hwi
        rw [h3] at hwi
        obtain ⟨cs, _, hpos, _, _, hpres, hnone, _, _⟩ :=
          writeInternal_spec env fuel (spillState w b) (w.fw.smallFileBuffer ++ b)
            m none w2 hwf hwi
        obtain ⟨hm, htot⟩ := hnone rfl
        have hsd : w2.fw.storeInDB = false := hpres.1
        rw [List.length_append] at htot
        simp only [pendingLen, hs, hsd, if_true, if_false, Bool.false_eq_true]
        have hpos2 : w2.fw.pos = w.fw.pos + totLen cs := hpos
        omega
  · have hs2 : w.fw.storeInDB = false := by
      revert hs
      cases w.fw.storeInDB <;> simp
    rw [Write_stream env fuel w b hs2] at h
    obtain ⟨cs, _, hpos, _, _, hpres, hnone, _, _⟩ :=
      writeInternal_spec env fuel w b n none w2 hwf h
    obtain ⟨hm, htot⟩ := hnone rfl
    have hsd : w2.fw.storeInDB = false := by rw [hpres.1, hs2]
    simp only [pendingLen, hs2, hsd, Bool.false_eq_true, if_false]
    omega

theorem runWrites_pos (env : Env) (fuel : Nat) (hwf : EnvWF env) :
    ∀ bs w rs w2, runWrites env fuel w bs = some (rs, w2) →
      (∀ p ∈ rs, p.2 = none) →
      w2.fw.pos + pendingLen w2 = w.fw.pos + pendingLen w + (rs.map Prod.fst).sum := by
  intro bs
  induction bs with
  | nil =>
    intro w rs w2 h _
    simp only [runWrites, Option.some.injEq, Prod.mk.injEq] at h
    obtain ⟨h1, h2⟩ := h
    subst h1
    subst h2
    simp
  | cons b bs ih =>
    intro w rs w2 h hok
    simp only [runWrites] at h
    rcases hw : Write env fuel w b with _ | ⟨n, e, w1⟩
    · rw [hw] at h
      simp at h
    · rw [hw] at h
      dsimp only at h
      rcases hr : runWrites env fuel w1 bs with _ | ⟨rs1, w3⟩
      · rw [hr] at h
        simp at h
      · rw [hr] at h
        simp only [Option.some.injEq, Prod.mk.injEq] at h
        obtain ⟨h1, h2⟩ := h
        subst h1
        rw [h2] at hr
        have he : e = none := hok (n, e) (by simp)
        subst he
        have hstep := Write_pos_step env fuel w b n w1 hwf hw
        have hrec := ih w1 rs1 w2 hr (fun p hp => hok p (by simp [hp]))
        simp only [List.map_cons, List.sum_cons]
        omega

/-- Claim C2, amended: for a fresh writer (`pos = 0`, empty buffer) and any
sequence of `Write` calls that all return nil errors, `pos` plus the bytes
still pending in the small-file buffer (counted only while small-file mode is
active) equals the sum of the returned counts. In particular `pos = Σ n_i`
once small-file mode is off, but while bytes are only buffered `pos` lags by
the buffer length: the code does not advance `pos` for buffered bytes. -/
theorem c2_pos_amended (env : Env) (fuel : Nat) (w : W) (bs : List (List Nat))
    (rs : List (Nat × Option GoErr)) (w2 : W)
    (hwf : EnvWF env) (hpos : w.fw.pos = 0) (hbuf : w.fw.smallFileBuffer = [])
    (h : runWrites env fuel w bs = some (rs, w2))
    (hok : ∀ p ∈ rs, p.2 = none) :
    w2.fw.pos + pendingLen w2 = (rs.map Prod.fst).sum := by
  have hrun := runWrites_pos env fuel hwf bs w rs w2 h hok
  rw [hpos] at hrun
  have hp : pendingLen w = 0 := by simp [pendingLen, hbuf]
  omega

theorem c2_pos_amended_witness :
    runWrites env0 1 w0small [[7], [8, 9]] = some ([(1, none), (2, none)], wC2)
    ∧ wC2.fw.pos + pendingLen wC2
      = (([(1, none), (2, none)] : List (Nat × Option GoErr)).map Prod.fst).sum :=
  ⟨by decide,
   c2_pos_amended env0 1 w0small [[7], [8, 9]] [(1, none), (2, none)] wC2
     env0_wf rfl rfl (by decide) (by decide)⟩

/-! ## Claim C3 -/

/-- Claim C3, counterexample: starting from a state satisfying the
mode-exclusion invariant (small-file mode, one buffered byte, no block
writer), a `Flush` whose spill fails after block allocation returns an error
with `storeInDB` still true and a live block writer — the invariant is broken
after an error return of a public call. -/
theorem c3_mode_counterexample :
    (Flush envC3 1 wBuf1).map Prod.fst = some (some (.msg "io fail"))
    ∧ (Flush envC3 1 wBuf1).map (fun r => (r.2.fw.storeInDB, r.2.fw.blockWriter))
      = some (true, some ()) := by
  decide

theorem flush_modeinv (env : Env) (fuel : Nat) (w : W) (w2 : W)
    (hm : ModeInv w) (h : Flush env fuel w = some (none, w2)) : ModeInv w2 := by
  simp only [Flush] at h
  by_cases hs : w.fw.storeInDB = true
  · rw [if_pos hs] at h
    by_cases hb : 0 < w.fw.smallFileBuffer.length
    · rw [if_pos hb] at h
      rcases hwi : writeInternal env fuel w w.fw.smallFileBuffer with _ | ⟨m, e1, w3⟩
      · rw [hwi] at h
        simp at h
      · rw [hwi] at h
        cases e1 with
        | some e2 =>
          dsimp only at h
          simp at h
        | none =>
          dsimp only at h
          split at h
          · split at h
            · simp at h
            · simp only [Option.some.injEq, Prod.mk.injEq] at h
              obtain ⟨_, h2⟩ := h
              intro hcon
              rw [← h2] at hcon
              simp at hcon
          · simp only [Option.some.injEq, Prod.mk.injEq] at h
            obtain ⟨_, h2⟩ := h
            intro hcon
            rw [← h2] at hcon
            simp at hcon
    · rw [if_neg hb] at h
      dsimp only at h
      split at h
      · rename_i hbw
        split at h
        · simp at h
        · simp only [Option.some.injEq, Prod.mk.injEq] at h
          obtain ⟨_, h2⟩ := h
          have hnone : w.fw.blockWriter = none := hm hs
          rw [hnone] at hbw
          simp at hbw
      · simp only [Option.some.injEq, Prod.mk.injEq] at h
        obtain ⟨_, h2⟩ := h
        rw [← h2]
        exact hm
  · have hs2 : w.fw.storeInDB = false := by
      revert hs
      cases w.fw.storeInDB <;> simp
    rw [if_neg (by rw [hs2]; simp)] at h
    dsimp only at h
    split at h
    · split at h
      · simp at h
      · simp only [Option.some.injEq, Prod.mk.injEq] at h
        obtain ⟨_, h2⟩ := h
        intro hcon
        rw [← h2] at hcon
        simp only at hcon
        rw [hs2] at hcon
        simp at hcon
    · simp only [Option.some.injEq, Prod.mk.injEq] at h
      obtain ⟨_, h2⟩ := h
      rw [← h2]
      exact hm

theorem write_modeinv (env : Env) (fuel : Nat) (w : W) (b : List Nat)
    (n : Nat) (e : Option GoErr) (w2 : W)
    (hm : ModeInv w) (h : Write env fuel w b = some (n, e, w2)) : ModeInv w2 := by
  by_cases hs : w.fw.storeInDB = true
  · by_cases hfit : (w.fw.smallFileBuffer ++ b).length ≤ MaxSmallFileSize
    · rw [Write_fits env fuel w b hs hfit] at h
      simp only [Option.some.injEq, Prod.mk.injEq] at h
      obtain ⟨_, h3⟩ := h
      intro _
      rw [← h3.2]
      exact hm hs
    · have hover : MaxSmallFileSize < w.fw.smallFileBuffer.length + b.length := by
        rw [List.length_append] at hfit
        omega
      rw [Write_overflow env fuel w b hs hover] at h
      rcases hwi : writeInternal env fuel (spillState w b) (w.fw.smallFileBuffer ++ b)
        with _ | ⟨m, e1, w3⟩
      · rw [hwi] at h
        simp at h
      · rw [hwi] at h
        simp only [Option.some.injEq, Prod.mk.injEq] at h
        obtain ⟨_, _, h3⟩ := h
        rw [h3] at hwi
        have hp := writeInternal_pres env fuel (spillState w b) _ m e1 w2 hwi
        intro hcon
        rw [hp.1] at hcon
        simp [spillState] at hcon
  · have hs2 : w.fw.storeInDB = false := by
      revert hs
      cases w.fw.storeInDB <;> simp
    rw [Write_stream env fuel w b hs2] at h
    have hp := writeInternal_pres env fuel w b n e w2 h
    intro hcon
    rw [hp.1, hs2] at hcon
    simp at hcon

theorem close_modeinv (env : Env) (fuel : Nat) (w : W) (w2 : W)
    (hm : ModeInv w) (h : Close env fuel w = some (none, w2)) : ModeInv w2 := by
  unfold Close at h
  rcases hci : closeInt env w with ⟨r1, w1⟩
  rw [hci] at h
  cases r1 with
  | none =>
    dsimp only at h
    simp only [Option.some.injEq, Prod.mk.injEq] at h
    obtain ⟨_, h2⟩ := h
    have hspec := closeInt_spec env w _ _ hci
    intro hcon
    rw [← h2] at hcon ⊢
    rw [hspec.1] at hcon
    rcases hspec.2.2.2.2.2.2.2 with hbw | hbw
    · rw [hbw]
      exact hm hcon
    · exact hbw
  | some e1 =>
    dsimp only at h
    split at h
    · rcases hwi : writeInternal env fuel w1 w1.fw.smallFileBuffer with _ | ⟨m, e2, w3⟩
      · rw [hwi] at h
        simp at h
      · rw [hwi] at h
        cases e2 with
        | some e3 =>
          dsimp only at h
          simp at h
        | none =>
          dsimp only at h
          rcases hci2 : closeInt env { w3 with fw := { w3.fw with storeInDB := false } }
            with ⟨r2, w4⟩
          rw [hci2] at h
          simp only [Option.some.injEq, Prod.mk.injEq] at h
          obtain ⟨_, h2⟩ := h
          have hspec := closeInt_spec env _ _ _ hci2
          intro hcon
          rw [← h2] at hcon
          rw [hspec.1] at hcon
          simp at hcon
    · simp at h

/-- Claim C3, amended: the mode-exclusion invariant (`storeInDB` implies no
open block writer) is preserved by every `Write` and `SetDeadline` return and
by every `Flush` or `Close` that returns nil; but an error return from a
spill inside `Flush` (or inside the `Close` recovery) can leave small-file
mode set with a live block writer, as the counterexample shows. -/
theorem c3_mode_amended :
    (∀ env fuel w b n e w2, ModeInv w → Write env fuel w b = some (n, e, w2) → ModeInv w2)
    ∧ (∀ env w r w2, ModeInv w → SetDeadline env w = (r, w2) → ModeInv w2)
    ∧ (∀ env fuel w w2, ModeInv w → Flush env fuel w = some (none, w2) → ModeInv w2)
    ∧ (∀ env fuel w w2, ModeInv w → Close env fuel w = some (none, w2) → ModeInv w2) := by
  refine ⟨write_modeinv, ?_, flush_modeinv, close_modeinv⟩
  intro env w r w2 hm h
  unfold SetDeadline at h
  split at h
  · split at h <;> cases h <;> exact fun hcon => hm hcon
  · cases h
    exact hm

theorem c3_mode_amended_witness : ModeInv w7 :=
  c3_mode_amended.1 env0 1 w0small [7] 1 none w7 (fun _ => rfl) (by decide)

/-! ## Claim C4 -/

/-- Claim C4: an overflowing small-file `Write` (buffer length plus input
length beyond `MaxSmallFileSize`) flips `storeInDB` off, streams the entire
accumulated buffer (old contents followed by the caller's bytes) through
`writeInternal`, and returns the caller's input length `len(b)` — with the
streaming error, if any, returned alongside that same count. On success the
bytes handed to block writers in this call are exactly the whole buffer. -/
theorem c4_overflow_write (env : Env) (fuel : Nat) (w : W) (b : List Nat)
    (n : Nat) (e : Option GoErr) (w2 : W)
    (hwf : EnvWF env)
    (hs : w.fw.storeInDB = true)
    (hover : MaxSmallFileSize < w.fw.smallFileBuffer.length + b.length)
    (h : Write env fuel w b = some (n, e, w2)) :
    n = b.length
    ∧ w2.fw.storeInDB = false
    ∧ (∃ m, writeInternal env fuel (spillState w b) (w.fw.smallFileBuffer ++ b)
        = some (m, e, w2))
    ∧ (e = none → ∃ cs, w2.chunks = w.chunks ++ cs
        ∧ concatData cs = w.fw.smallFileBuffer ++ b) := by
  rw [Write_overflow env fuel w b hs hover] at h
  rcases hwi : writeInternal env fuel (spillState w b) (w.fw.smallFileBuffer ++ b)
    with _ | ⟨m, e1, w3⟩
  · rw [hwi] at h
    simp at h
  · rw [hwi] at h
    simp only [Option.some.injEq, Prod.mk.injEq] at h
    obtain ⟨h1, h2, h3⟩ := h
    have hwi2 : writeInternal env fuel (spillState w b) (w.fw.smallFileBuffer ++ b)
        = some (m, e, w2) := by
      rw [hwi, h2, h3]
    have hp := writeInternal_pres env fuel (spillState w b) _ m e w2 hwi2
    refine ⟨h1.symm, hp.1, ⟨m, by rw [h2, h3]⟩, ?_⟩
    intro he
    rw [he] at hwi2
    obtain ⟨cs, hch, _, hcat, _, _, hnone, _, _⟩ :=
      writeInternal_spec env fuel (spillState w b) (w.fw.smallFileBuffer ++ b)
        m none w2 hwf hwi2
    obtain ⟨_, htot⟩ := hnone rfl
    refine ⟨cs, hch, ?_⟩
    rw [hcat, htot, List.take_length]

theorem bufBig_length : bufBig.length = 65536 := by
  unfold bufBig
  exact List.length_replicate 65536 0

theorem wBig_over : MaxSmallFileSize < wBig.fw.smallFileBuffer.length + [9].length := by
  have h1 : wBig.fw.smallFileBuffer.length = 65536 := bufBig_length
  rw [h1]
  decide

set_option maxRecDepth 4000 in
theorem writeBig_eval :
    Write envC4 1 wBig [9] = some (1, some (.msg "dial refused"), wBigAfter) := by
  rw [Write_overflow envC4 1 wBig [9] rfl wBig_over]
  have hwi : writeInternal envC4 1 (spillState wBig [9]) (wBig.fw.smallFileBuffer ++ [9])
      = some (0, some (.msg "dial refused"), wBigAfter) := by
    rfl
  rw [hwi]
  rfl

theorem c4_overflow_write_witness :
    wBig.fw.storeInDB = true
    ∧ MaxSmallFileSize < wBig.fw.smallFileBuffer.length + [9].length
    ∧ (1 = [9].length ∧ wBigAfter.fw.storeInDB = false) :=
  ⟨rfl, wBig_over,
   ⟨(c4_overflow_write envC4 1 wBig [9] 1 (some (.msg "dial refused")) wBigAfter
       (fun _ m => Nat.le_refl m) rfl wBig_over writeBig_eval).1,
    (c4_overflow_write envC4 1 wBig [9] 1 (some (.msg "dial refused")) wBigAfter
       (fun _ m => Nat.le_refl m) rfl wBig_over writeBig_eval).2.1⟩⟩

/-! ## Claim C5 -/

/-- Claim C5 (code bug): on the keystream-construction failure point of
`writeInternal` (file_writer.go:264-267) the code returns `0` even when
earlier iterations of the same call already consumed bytes. In this run one
byte is consumed (an end-of-block short write advances `pos` from 0 to 1 and
a new block is opened), then the keystream rebuild fails and the call returns
`(0, err)` — not the partial count 1 the claim (and the `io.Writer` contract
that `Write` documents itself to implement) requires. -/
theorem c5_partial_count_bug :
    (writeInternal envC5 5 wC5 [5, 6]).map (fun r => (r.1, r.2.1))
      = some (0, some (.msg "keystream failure"))
    ∧ (writeInternal envC5 5 wC5 [5, 6]).map (fun r => r.2.2.fw.pos) = some 1
    ∧ (writeInternal envC5 5 wC5 [5, 6]).map (fun r => totLen r.2.2.chunks) = some 1 := by
  decide

/-! ## Claim C6 -/

/-- Claim C6: recovery in `Close`. If the first `closeInt` fails while
small-file mode is active, the buffer is non-empty, and the error text
contains "OutOfDBExtentsException", then `Close` streams the buffer (a
streaming failure is returned directly, leaving small-file mode set), flips
`storeInDB` off, and re-runs `closeInt` exactly once, returning its result —
`closeIntCalls` rises by exactly 2. Any other `closeInt` failure is returned
directly with no second `closeInt` (`closeIntCalls` rises by 1). -/
theorem c6_close_recovery (env : Env) (fuel : Nat) (w : W) :
    (∀ e w1, closeInt env w = (some e, w1) →
      ¬(w1.fw.storeInDB = true ∧ w1.fw.smallFileBuffer ≠ [] ∧
          strContains e.message "OutOfDBExtentsException" = true) →
      Close env fuel w = some (some e, w1) ∧ w1.closeIntCalls = w.closeIntCalls + 1)
    ∧ (∀ e w1, closeInt env w = (some e, w1) →
      w1.fw.storeInDB = true → w1.fw.smallFileBuffer ≠ [] →
      strContains e.message "OutOfDBExtentsException" = true →
      (∀ m e2 w2, writeInternal env fuel w1 w1.fw.smallFileBuffer = some (m, some e2, w2) →
        Close env fuel w = some (some e2, w2) ∧ w2.fw.storeInDB = true)
      ∧ (∀ m w2, writeInternal env fuel w1 w1.fw.smallFileBuffer = some (m, none, w2) →
        Close env fuel w
          = some (closeInt env { w2 with fw := { w2.fw with storeInDB := false } })
        ∧ (closeInt env { w2 with fw := { w2.fw with storeInDB := false } }).2.closeIntCalls
          = w.closeIntCalls + 2)) := by
  constructor
  · intro e w1 hci hnot
    refine ⟨?_, (closeInt_spec env w _ _ hci).2.2.2.2.2.2.1⟩
    unfold Close
    rw [hci]
    dsimp only
    rw [if_neg hnot]
  · intro e w1 hci h1 h2 h3
    constructor
    · intro m e2 w2 hwi
      have hp := writeInternal_pres env fuel w1 _ m (some e2) w2 hwi
      refine ⟨?_, by rw [hp.1]; exact h1⟩
      unfold Close
      rw [hci]
      dsimp only
      rw [if_pos ⟨h1, h2, h3⟩, hwi]
    · intro m w2 hwi
      constructor
      · unfold Close
        rw [hci]
        dsimp only
        rw [if_pos ⟨h1, h2, h3⟩, hwi]
      · rcases hci2 : closeInt env { w2 with fw := { w2.fw with storeInDB := false } }
          with ⟨r2, w4⟩
        have hs2 := closeInt_spec env _ _ _ hci2
        have hp := writeInternal_pres env fuel w1 _ m none w2 hwi
        have hs1 := closeInt_spec env w _ _ hci
        have e1 : w4.closeIntCalls = w2.closeIntCalls + 1 := hs2.2.2.2.2.2.2.1
        have e2 : w2.closeIntCalls = w1.closeIntCalls := hp.2.2.2.1
        have e3 : w1.closeIntCalls = w.closeIntCalls + 1 := hs1.2.2.2.2.2.2.1
        dsimp only
        omega

theorem c6_close_recovery_witness :
    Close envBoom 1 w0plain = some (some eBoom, wBoom1)
    ∧ wBoom1.closeIntCalls = w0plain.closeIntCalls + 1 :=
  (c6_close_recovery envBoom 1 w0plain).1 eBoom wBoom1 (by decide) (by decide)

/-! ## Claim C7 -/

/-- Claim C7: `addBlockWithRetry` issues at most 8 `addBlock` RPCs, retries
only after an error whose text contains "NotReplicatedYetException" (every
attempt that is followed by another one saw such an error), and its sleeps
are exactly 400 ms doubling each retry; the `complete` loop of `closeInt`
issues at most 10 RPCs, retries only after a reply with `result = false` (an
RPC error or a true reply stops the loop), and its sleeps are exactly 250 ms
doubling each retry. -/
theorem c7_retry_bounds (abexec : Nat → Option String) (name : String)
    (cpexec : Nat → CpResp) :
    (addBlockWithRetry abexec).attempts ≤ 8
    ∧ (∀ j, j + 1 < (addBlockWithRetry abexec).attempts →
        ∃ s, abexec j = some s ∧ strContains s "NotReplicatedYetException" = true)
    ∧ (addBlockWithRetry abexec).sleeps
        = (List.range (addBlockWithRetry abexec).sleeps.length).map (fun k => 400 * 2 ^ k)
    ∧ (completeLoop name cpexec).attempts ≤ 10
    ∧ (∀ j, j + 1 < (completeLoop name cpexec).attempts → cpexec j = .result false)
    ∧ (completeLoop name cpexec).sleeps
        = (List.range (completeLoop name cpexec).sleeps.length).map
            (fun k => 250 * 2 ^ k) := by
  refine ⟨abLoop_attempts abexec 8 0 400 [] none, ?_, ?_,
    cpLoop_attempts name cpexec 10 0 250 [], ?_, ?_⟩
  · exact abLoop_retry abexec 8 0 400 [] none (fun j hj => absurd hj (by omega))
  · exact abLoop_sleeps abexec 8 0 400 [] (by simp) (by simp) none
  · exact cpLoop_retry name cpexec 10 0 250 [] (fun j hj => absurd hj (by omega))
  · exact cpLoop_sleeps name cpexec 10 0 250 [] (by simp) (by simp)

theorem c7_retry_bounds_witness :
    (addBlockWithRetry (fun _ => some "NotReplicatedYetException")).attempts ≤ 8
    ∧ (completeLoop "g" (fun _ => .result false)).attempts ≤ 10 :=
  ⟨(c7_retry_bounds (fun _ => some "NotReplicatedYetException") "g"
      (fun _ => .result false)).1,
   (c7_retry_bounds (fun _ => some "NotReplicatedYetException") "g"
      (fun _ => .result false)).2.2.2.1⟩

/-! ## Claim C8 -/

/-- Claim C8: (1) after the encrypted write of one loop iteration the
keystream is kept exactly when the block writer consumed the whole offer (and
then sits past the full offer, matching the new `pos`); on any short consume
it is dropped (`some none` — absent, to be rebuilt at `pos` by the next
iteration that needs it). (2) Consequently, for an encrypted writer whose
live keystream (if any) sits at `pos`, every chunk that `writeInternal`
streams carries a keystream offset equal to its file offset, and the
keystream-position invariant still holds afterwards. -/
theorem c8_keystream :
    (∀ env b off (w : W) c,
      ((wiStepEnc env b off w c).toW).fw.enc
        = some (if (env.bwWrite w.cW (b.length - off)).1 = b.length - off
                then some (c + (b.length - off)) else none))
    ∧ (∀ env fuel w b n e w2, EnvWF env → w.fw.enc.isSome = true → encInvAt w →
        writeInternal env fuel w b = some (n, e, w2) →
        encInvAt w2 ∧ w2.chunks.take w.chunks.length = w.chunks ∧
        ∀ ch ∈ w2.chunks.drop w.chunks.length, ch.ksPos = some ch.filePos) := by
  constructor
  · intro env b off w c
    simp only [wiStepEnc]
    rw [wiStepFinish_enc]
  · intro env fuel w b n e w2 hwf hsome hinv h
    obtain ⟨cs, hch, _, _, _, _, _, hencI, hencS⟩ :=
      writeInternal_spec env fuel w b n e w2 hwf h
    obtain ⟨hinv2, hks⟩ := hencI hinv
    refine ⟨hinv2, ?_, ?_⟩
    · rw [hch, List.take_left]
    · rw [hch, List.drop_left]
      intro ch hm
      exact hks ch hm (hencS hsome ch hm)

theorem c8_keystream_witness :
    encInvAt wC8x ∧ chC8.ksPos = some chC8.filePos :=
  have h := c8_keystream.2 envC8 5 wC8 [5, 6] 2 none wC8x envC8_wf rfl
    (fun c hc => by simp [wC8] at hc) (by decide)
  ⟨h.1, h.2.2 chC8 (by decide)⟩

/-! ## Claim C9 -/

/-- Claim C9, counterexample: a successful `Flush` spill of a one-byte
small-file buffer returns nil, flips `storeInDB` to false, and leaves the
buffer still holding its byte — so between public calls, outside any
Close-recovery, the buffer is non-empty while small-file mode is off. -/
theorem c9_buffer_counterexample :
    (Flush env0 1 wBuf1).map Prod.fst = some none
    ∧ (Flush env0 1 wBuf1).map (fun r => (r.2.fw.storeInDB, r.2.fw.smallFileBuffer))
      = some (false, [1]) := by
  decide

theorem flush_spill_keeps_buffer (env : Env) (fuel : Nat) (w : W) (w2 : W)
    (hs : w.fw.storeInDB = true) (hb : w.fw.smallFileBuffer ≠ [])
    (h : Flush env fuel w = some (none, w2)) :
    w2.fw.storeInDB = false ∧ w2.fw.smallFileBuffer = w.fw.smallFileBuffer := by
  simp only [Flush] at h
  rw [if_pos hs] at h
  rw [if_pos (by cases hx : w.fw.smallFileBuffer with
    | nil => exact absurd hx hb
    | cons a l => simp)] at h
  rcases hwi : writeInternal env fuel w w.fw.smallFileBuffer with _ | ⟨m, e1, w3⟩
  · rw [hwi] at h
    simp at h
  · rw [hwi] at h
    cases e1 with
    | some e2 =>
      dsimp only at h
      simp at h
    | none =>
      dsimp only at h
      have hp := writeInternal_pres env fuel w _ m none w3 hwi
      split at h
      · split at h
        · simp at h
        · simp only [Option.some.injEq, Prod.mk.injEq] at h
          obtain ⟨_, h2⟩ := h
          rw [← h2]
          exact ⟨rfl, hp.2.1⟩
      · simp only [Option.some.injEq, Prod.mk.injEq] at h
        obtain ⟨_, h2⟩ := h
        rw [← h2]
        exact ⟨rfl, hp.2.1⟩

/-- Claim C9, amended: the code never clears the small-file buffer. A
successful `Flush` spill flips `storeInDB` off and leaves the buffer exactly
as it was; an overflowing `Write` flips `storeInDB` off and leaves the buffer
holding the old contents followed by the caller's bytes (non-empty). The
buffer can therefore be non-empty with small-file mode off between public
calls, not only during Close-recovery; the true invariant is only that
buffered bytes are pending exactly while small-file mode is active. -/
theorem c9_buffer_amended :
    (∀ env fuel w w2, w.fw.storeInDB = true → w.fw.smallFileBuffer ≠ [] →
      Flush env fuel w = some (none, w2) →
      w2.fw.storeInDB = false ∧ w2.fw.smallFileBuffer = w.fw.smallFileBuffer)
    ∧ (∀ env fuel w b n e w2, w.fw.storeInDB = true →
      MaxSmallFileSize < w.fw.smallFileBuffer.length + b.length →
      Write env fuel w b = some (n, e, w2) →
      w2.fw.storeInDB = false ∧ w2.fw.smallFileBuffer = w.fw.smallFileBuffer ++ b ∧
      w2.fw.smallFileBuffer ≠ []) := by
  constructor
  · exact flush_spill_keeps_buffer
  · intro env fuel w b n e w2 hs hover h
    rw [Write_overflow env fuel w b hs hover] at h
    rcases hwi : writeInternal env fuel (spillState w b) (w.fw.smallFileBuffer ++ b)
      with _ | ⟨m, e1, w3⟩
    · rw [hwi] at h
      simp at h
    · rw [hwi] at h
      simp only [Option.some.injEq, Prod.mk.injEq] at h
      obtain ⟨_, _, h3⟩ := h
      rw [h3] at hwi
      have hp := writeInternal_pres env fuel (spillState w b) _ m e1 w2 hwi
      have hbuf : w2.fw.smallFileBuffer = w.fw.smallFileBuffer ++ b := hp.2.1
      refine ⟨hp.1, hbuf, ?_⟩
      rw [hbuf]
      have hlen : 0 < (w.fw.smallFileBuffer ++ b).length := by
        rw [List.length_append]
        have hmax : 0 < MaxSmallFileSize := by decide
        omega
      intro hnil
      rw [hnil] at hlen
      simp at hlen

theorem c9_buffer_amended_witness :
    wBuf1.fw.storeInDB = true ∧ wBuf1.fw.smallFileBuffer ≠ [] ∧
    (wBuf1x.fw.storeInDB = false ∧ wBuf1x.fw.smallFileBuffer = wBuf1.fw.smallFileBuffer) :=
  ⟨rfl, by decide,
   c9_buffer_amended.1 env0 1 wBuf1 wBuf1x rfl (by decide) (by decide)⟩

/-! ## Claim C10 -/

/-- Claim C10: the storage-policy check of `CreateFile` dereferences the
policy pointer unconditionally: a create response without a storage-policy
identifier panics (modelled as `none`), and for every response carrying a
policy the check is defined, entering small-file mode exactly for policy 14. -/
theorem c10_storage_policy_deref :
    createFileStoredInDB none = none
    ∧ ∀ p : Nat, createFileStoredInDB (some p) = some (p == 14) :=
  ⟨rfl, fun _ => rfl⟩

theorem c10_storage_policy_deref_witness :
    createFileStoredInDB none = none ∧ createFileStoredInDB (some 14) = some true :=
  ⟨c10_storage_policy_deref.1, c10_storage_policy_deref.2 14⟩
